import Mathlib

/-!
# Shallow embedding of the kontrolle evaluation core

This file embeds, in Lean 4, the evaluation core of the kontrolle
TypeScript repository:

* the naming codec (`src/lib/helpers.ts`: `createName`, `decodeName`),
* the entity model (`src/lib/permission.ts`, `src/lib/feature.ts`),
* the config-to-index transform (`src/lib/index.ts`: `init`, `create`,
  `createRoles`, `createPermissions`, `createFeatures` variants),
* the rule registry and quorum evaluator (`src/lib/acl.ts`).

JavaScript behaviour that the claims depend on (truthiness, strict
equality, property access on primitives yielding `undefined`, prototype
versus own properties of constructor functions) is modelled explicitly.
Thrown JavaScript errors are modelled with `Except`.
-/

namespace Kontrolle

/-- Errors thrown by `createName` (`src/lib/helpers.ts`, lines 40-50 and
`src/lib/feature.ts` `Feature.prototype.createName`): the messages are
"Delimiter is not defined", "Action is not defined" (used for the group
argument), and "Resource is not defined". -/
inductive NameError where
  | delimiterNotDefined
  | actionNotDefined
  | resourceNotDefined
  deriving DecidableEq, Repr

/-- Errors thrown by `decodeName` (`src/lib/helpers.ts`, lines 60-81):
"Delimiter is required", "Name is required", "Wrong name". -/
inductive DecodeError where
  | delimiterRequired
  | nameRequired
  | wrongName
  deriving DecidableEq, Repr

/-- Runtime errors surfacing out of `init` / `hasFeature`
(`src/lib/index.ts`): the "Roles are required" configuration error, a
JavaScript `TypeError` (calling a value that is not a function), and the
`createName` errors propagated out of permission construction. -/
inductive JsError where
  | rolesRequired
  | typeError
  | nameErr (e : NameError)
  deriving DecidableEq, Repr

/-- First index (counted in characters) at which the pattern `p` occurs
as a contiguous substring of `l`; models JavaScript
`String.prototype.indexOf` returning `-1` as `none`. -/
def idxOfSub (p : List Char) : List Char → Option Nat
  | [] => if p.isPrefixOf ([] : List Char) then some 0 else none
  | a :: t =>
    if p.isPrefixOf (a :: t) then some 0
    else (idxOfSub p t).map (· + 1)

/-- JavaScript `name.indexOf(delimiter)` on strings. -/
def jsIndexOf (s sub : String) : Option Nat :=
  idxOfSub sub.data s.data

/-- `createName` from `src/lib/helpers.ts` (lines 35-52): throws when
`delimiter`, `group` or `resource` is falsy (the empty string), and
otherwise produces the template string `group + delimiter + resource`. -/
def createName (group resource delimiter : String) : Except NameError String :=
  if delimiter = "" then .error .delimiterNotDefined
  else if group = "" then .error .actionNotDefined
  else if resource = "" then .error .resourceNotDefined
  else .ok (group ++ delimiter ++ resource)

/-- The record `{action, resource}` returned by `decodeName`
(`src/lib/helpers.ts`): the field holding the group half is called
`action` in the source. -/
structure DecodedName where
  action : String
  resource : String
  deriving DecidableEq, Repr

/-- `decodeName` from `src/lib/helpers.ts` (lines 60-81): splits the
name at the first occurrence of the delimiter, taking
`name.substring(0, pos)` and `name.substring(pos + 1)` — note the
`pos + 1`, which skips a single character regardless of the delimiter's
length. -/
def decodeName (name delimiter : String) : Except DecodeError DecodedName :=
  if delimiter = "" then .error .delimiterRequired
  else if name = "" then .error .nameRequired
  else
    match jsIndexOf name delimiter with
    | none => .error .wrongName
    | some pos => .ok ⟨⟨name.data.take pos⟩, ⟨name.data.drop (pos + 1)⟩⟩

/-! ## JavaScript object model

The flat indexes built by the config transform are plain JavaScript
objects used as string-keyed maps.  They are modelled as association
lists: `objSet` is property assignment (replace in place, or append a
new binding), `assocFind` is property read. -/

/-- Property assignment `m[k] = v` on a JavaScript object. -/
def objSet (m : List (String × α)) (k : String) (v : α) : List (String × α) :=
  match m with
  | [] => [(k, v)]
  | (k₁, v₁) :: t => if k₁ = k then (k, v) :: t else (k₁, v₁) :: objSet t k v

/-- Property read `m[k]` on a JavaScript object (`undefined` as `none`). -/
def assocFind (m : List (String × α)) (k : String) : Option α :=
  match m with
  | [] => none
  | (k₁, v₁) :: t => if k₁ = k then some v₁ else assocFind t k

/-! ## Rule registry and quorum evaluator (`src/lib/acl.ts`) -/

/-- The JavaScript values flowing through the quorum evaluator: rule
predicates return booleans, `ruleChecker` on an array of names returns
the two-element array `[counter, valid]` (modelled as `vpair`), and
indexing a non-array with `[0]` / `[1]` yields `undefined`. -/
inductive JsVal where
  | vbool (b : Bool)
  | vnum (n : Nat)
  | vundef
  | vpair (tested satisfied : Nat)
  deriving DecidableEq, Repr

namespace JsVal

/-- JavaScript truthiness of the values above; arrays are objects and
hence always truthy. -/
def truthy : JsVal → Bool
  | vbool b => b
  | vnum n => n != 0
  | vundef => false
  | vpair _ _ => true

/-- JavaScript `res[0]`: the first element for an array, `undefined` for
the primitives (property access on a primitive wrapper). -/
def index0 : JsVal → JsVal
  | vpair a _ => vnum a
  | _ => vundef

/-- JavaScript `res[1]`. -/
def index1 : JsVal → JsVal
  | vpair _ b => vnum b
  | _ => vundef

/-- JavaScript strict equality `===` restricted to the values that the
evaluator actually compares (numbers, booleans, `undefined`; two array
references arising here are never identical). -/
def strictEq : JsVal → JsVal → Bool
  | vbool a, vbool b => a == b
  | vnum a, vnum b => a == b
  | vundef, vundef => true
  | _, _ => false

/-- JavaScript `<` on these values: numeric on two numbers, `false` when
either side converts to `NaN` (in particular `undefined`). -/
def jsLt : JsVal → JsVal → Bool
  | vnum a, vnum b => a < b
  | _, _ => false

end JsVal

/-- Outcome of invoking a user-supplied predicate: it either throws or
returns a value. -/
inductive CallResult where
  | thrown
  | ret (v : JsVal)

/-- An entry of the rules map: either a registered value that is not a
function (`typeof callback !== 'function'`), or a predicate receiving
the bound user and the evaluation arguments. -/
inductive Callback where
  | notFn
  | fn (f : JsVal → List JsVal → CallResult)

/-- The module-level `_ACL` state of `src/lib/acl.ts`: the bound user
and the name-to-predicate rules map (`name in rulesMap` is key
membership, i.e. `isSome`). -/
structure ACLState where
  user : JsVal
  rulesMap : String → Option Callback

/-- The first argument of `ruleChecker`: a single rule name, an array of
rule names, or any other value (which makes `ruleChecker` fall through
to its final `return false`). -/
inductive RulesArg where
  | str (s : String)
  | list (l : List String)
  | other

/-- `evaluateRuleCallback` from `src/lib/acl.ts` (lines 139-165): a
non-function registration logs and returns `false`; a throwing predicate
is caught, logged, and turned into `false`; otherwise the predicate is
invoked as `callback(_ACL.user, ...args)` and its raw result is
returned.  (The `!args` branch in the source is dead: a rest parameter
is always an array.) -/
def evaluateRuleCallback (st : ACLState) (cb : Callback) (args : List JsVal) : JsVal :=
  match cb with
  | .notFn => .vbool false
  | .fn f =>
    match f st.user args with
    | .thrown => .vbool false
    | .ret v => v

/-- The `forEach` loop body accumulator of `ruleChecker` on an array of
rule names: `(counter, valid)` after the processed prefix; an
unregistered name is skipped, a registered one is dispatched and counted
(`valid` additionally requires a truthy result). -/
def countAux (st : ACLState) (args : List JsVal) : List String → Nat × Nat → Nat × Nat
  | [], acc => acc
  | r :: t, acc =>
    countAux st args t
      (match st.rulesMap r with
       | none => acc
       | some cb =>
         (acc.1 + 1,
          if (evaluateRuleCallback st cb args).truthy then acc.2 + 1 else acc.2))

/-- The `[counter, valid]` pair computed by `ruleChecker`'s array
branch. -/
def countRules (st : ACLState) (l : List String) (args : List JsVal) : Nat × Nat :=
  countAux st args l (0, 0)

/-- `ruleChecker` from `src/lib/acl.ts` (lines 92-129).  A single string
that is unregistered logs and returns `false`; a registered single
string returns the raw result of `evaluateRuleCallback` (not a
counter pair).  An array of names returns the `[counter, valid]` array.
Any other argument returns `false`. -/
def ruleChecker (st : ACLState) (rules : RulesArg) (args : List JsVal) : JsVal :=
  match rules with
  | .str r =>
    match st.rulesMap r with
    | none => .vbool false
    | some cb => evaluateRuleCallback st cb args
  | .list l =>
    let c := countRules st l args
    .vpair c.1 c.2
  | .other => .vbool false

/-- `canRuleChecker` (`can` / `canAll`): `!res` yields `false`,
otherwise the boolean `res[0] === res[1]`. -/
def canRuleChecker (st : ACLState) (rules : RulesArg) (args : List JsVal) : JsVal :=
  let res := ruleChecker st rules args
  if res.truthy then .vbool (JsVal.strictEq res.index0 res.index1) else .vbool false

/-- `canAnyRuleChecker` (`canAny`): `!res` yields `false`, otherwise the
raw value `res[1]` is returned (a number for the array branch,
`undefined` when `res` is a primitive). -/
def canAnyRuleChecker (st : ACLState) (rules : RulesArg) (args : List JsVal) : JsVal :=
  let res := ruleChecker st rules args
  if res.truthy then res.index1 else .vbool false

/-- `notRuleChecker` (`canNot` / `canNotAll`): `!res` yields `false`,
otherwise the boolean `res[1] === 0`. -/
def notRuleChecker (st : ACLState) (rules : RulesArg) (args : List JsVal) : JsVal :=
  let res := ruleChecker st rules args
  if res.truthy then .vbool (JsVal.strictEq res.index1 (.vnum 0)) else .vbool false

/-- `notAnyRuleChecker` (`canNotAny`): `!res` yields `false`, otherwise
the boolean `res[1] < res[0]`. -/
def notAnyRuleChecker (st : ACLState) (rules : RulesArg) (args : List JsVal) : JsVal :=
  let res := ruleChecker st rules args
  if res.truthy then .vbool (JsVal.jsLt res.index1 res.index0) else .vbool false

/-- Number of rule names in `l` that are registered in the map
(dispatched predicates; the `counter` total). -/
def testedCount (st : ACLState) (l : List String) : Nat :=
  (l.filter fun r => (st.rulesMap r).isSome).length

/-- Number of rule names in `l` that are registered and whose
evaluation yields a truthy value (the `valid` total). -/
def satCount (st : ACLState) (l : List String) (args : List JsVal) : Nat :=
  (l.filter fun r =>
    match st.rulesMap r with
    | none => false
    | some cb => (evaluateRuleCallback st cb args).truthy).length

/-! ## Entity model (`src/lib/permission.ts`, `src/lib/feature.ts`) -/

/-- The `action` value carried by a raw permission: a single string, an
array of strings, or `undefined` (the field is read with an `as` cast in
`createPermission`, so nothing enforces its presence).  Arrays carry a
reference identifier `id` because the collision check in
`createPermissions` compares actions with `===`, which is reference
equality on arrays. -/
inductive ActionVal where
  | vstr (s : String)
  | varr (id : Nat) (vals : List String)
  | vundef
  deriving DecidableEq, Repr

namespace ActionVal

/-- JavaScript truthiness: the empty string and `undefined` are falsy,
every array is truthy. -/
def truthy : ActionVal → Bool
  | vstr s => s ≠ ""
  | varr _ _ => true
  | vundef => false

/-- JavaScript `===` on action values: string comparison by value,
array comparison by reference. -/
def strictEq : ActionVal → ActionVal → Bool
  | vstr a, vstr b => a == b
  | varr i _, varr j _ => i == j
  | vundef, vundef => true
  | _, _ => false

end ActionVal

/-- Bounded substring test on character lists: JavaScript
`String.prototype.includes`. -/
def charsContain (p : List Char) : List Char → Bool
  | [] => p.isPrefixOf ([] : List Char)
  | a :: t => p.isPrefixOf (a :: t) || charsContain p t

/-- JavaScript `s.includes(probe)` on strings: substring containment. -/
def strIncludes (s probe : String) : Bool :=
  charsContain probe.data s.data

/-- The object returned by the `Permission` factory of
`src/lib/permission.ts` (lines 47-57): `name` is the composite name
generated from group and resource, `action` is the (shallow-copied)
action value as supplied. -/
structure Permission where
  name : String
  group : String
  resource : String
  action : ActionVal
  version : String
  deriving DecidableEq, Repr

/-- The `Permission` factory (`src/lib/permission.ts`, lines 12-22 and
47-57): computes `_name = createName(group, resource, delimiter)` —
which may throw — and packages the fields.  The `[...action]` spread for
arrays only changes the reference identity of the stored copy, which no
later code observes, so the action value is kept as supplied. -/
def mkPermission (group resource : String) (action : ActionVal) (version : String)
    (delimiter : String) : Except NameError Permission := do
  let name ← createName group resource delimiter
  pure ⟨name, group, resource, action, version⟩

/-- `Permission`'s `can` method (`src/lib/permission.ts`, lines 31-35):
`_group === group && _resource === resource && _action.includes(action)`.
The `&&` chain short-circuits, so `_action.includes` runs only when
group and resource match; `Array.prototype.includes` is membership while
`String.prototype.includes` is substring containment, and an `undefined`
action would make the call itself throw a `TypeError`. -/
def Permission.can (p : Permission) (group resource action : String) : Except JsError Bool :=
  if p.group = group ∧ p.resource = resource then
    match p.action with
    | .vstr s => .ok (strIncludes s action)
    | .varr _ vals => .ok (vals.contains action)
    | .vundef => .error .typeError
  else .ok false

/-- `Permission`'s `canActions` method (`src/lib/permission.ts`, lines
41-45): counts how many of the supplied actions pass the same
`_action.includes` test. -/
def Permission.canActions (p : Permission) (actions : List String) : Except JsError Nat :=
  match p.action with
  | .vstr s => .ok (actions.filter (fun a => strIncludes s a)).length
  | .varr _ vals => .ok (actions.filter (fun a => vals.contains a)).length
  | .vundef => if actions = [] then .ok 0 else .error .typeError

/-- The object built by the `Feature` constructor of
`src/lib/feature.ts` (lines 1-13); `version` is only set when truthy. -/
structure Feature where
  name : String
  group : String
  resource : String
  access : Nat
  version : Option String
  deriving DecidableEq, Repr

/-- The `Feature` constructor (`src/lib/feature.ts`): `this.createName`
resolves through the prototype and may throw; `version` is stored only
when truthy. -/
def mkFeature (group resource : String) (access : Nat) (version : String)
    (delimiter : String) : Except NameError Feature := do
  let name ← createName group resource delimiter
  pure ⟨name, group, resource, access, if version = "" then none else some version⟩

/-- The own properties of the `Feature` constructor function object:
`src/lib/feature.ts` installs `createName` on `Feature.prototype` only,
so the function object itself has no own `createName` (nor any other
method), and `Feature.createName` evaluates to `undefined`. -/
def featureCtorOwnProps : String → Option (String → String → String → Except NameError String) :=
  fun _ => none

/-- A role of the index.  Modelled from the spec: `src/lib/role.ts` is
not part of the sources; §3 of the specification gives
`Role: { name: string }` with identity equal to the name, and
`createRole(name)` returns `new Role(name)`. -/
structure Role where
  name : String
  deriving DecidableEq, Repr

/-! ## Config transform (`src/lib/index.ts`, first module-level variant
unless noted) -/

/-- A raw permission entry of the configuration
(`{ action | actions, version? }` plus arbitrary further properties).
`extra` models the own properties other than `action` and `version`;
their values are objects read back through `.action` by the collision
check. -/
structure ExtraObj where
  action : ActionVal
  deriving DecidableEq, Repr

/-- A raw permission object from the nested configuration. -/
structure RawPerm where
  action : ActionVal
  version : String
  extra : List (String × ExtraObj)
  deriving DecidableEq, Repr

/-- Property read `rawPermission[k]` on a raw permission object. -/
inductive RawProp where
  | act (a : ActionVal)
  | str (s : String)
  | obj (o : ExtraObj)

/-- Reading an arbitrary own property of a raw permission object:
`action` and `version` are its named fields, anything else comes from
`extra`. -/
def rawProp (raw : RawPerm) (k : String) : Option RawProp :=
  if k = "action" then some (.act raw.action)
  else if k = "version" then some (.str raw.version)
  else (assocFind raw.extra k).map .obj

/-- Truthiness of a property value. -/
def RawProp.truthy : RawProp → Bool
  | .act a => a.truthy
  | .str s => s ≠ ""
  | .obj _ => true

/-- JavaScript `.action` on a property value: an object exposes its
`action` field, a primitive yields `undefined`. -/
def RawProp.actionOf : RawProp → ActionVal
  | .act _ => .vundef
  | .str _ => .vundef
  | .obj o => o.action

/-- The skip condition of `createPermissions` (`src/lib/index.ts`, lines
157-162): `rawPermission[parsedPermission.name] &&
rawPermission[parsedPermission.name].action === rawPermission.action`.
Note that it indexes the incoming *raw* permission object, not the
`permissions` map being built. -/
def skipCond (raw : RawPerm) (name : String) : Bool :=
  match rawProp raw name with
  | none => false
  | some v => v.truthy && ActionVal.strictEq v.actionOf raw.action

/-- Generic exception-propagating left fold, mirroring the nested
`forEach` / `for...in` loops of the config transform (a thrown error
aborts the whole loop nest). -/
def foldSteps (step : μ → δ → Except ε μ) : μ → List δ → Except ε μ
  | m, [] => .ok m
  | m, x :: t =>
    match step m x with
    | .error e => .error e
    | .ok m₁ => foldSteps step m₁ t

/-- Loop body of `createPermissions` for one `(group, resourceKey, raw)`
declaration: build the `Permission` (which may throw), then either skip
or assign `permissions[parsedPermission.name] = parsedPermission`. -/
def permStep (delimiter : String) (m : List (String × Permission))
    (g res : String) (raw : RawPerm) : Except NameError (List (String × Permission)) :=
  match mkPermission g res raw.action raw.version delimiter with
  | .error e => .error e
  | .ok p => if skipCond raw p.name then .ok m else .ok (objSet m p.name p)

/-- The permissions configuration: an array of group objects, each a
map from group name to a map from resource key to raw permission. -/
abbrev PermsData := List (List (String × List (String × RawPerm)))

/-- `createPermissions` from `src/lib/index.ts` (lines 137-172): the
outer `forEach` walks the array, the two `for...in` loops walk the
groups and the per-group resource keys. -/
def createPermissions (pd : PermsData) (delimiter : String) :
    Except NameError (List (String × Permission)) :=
  foldSteps
    (fun m pg =>
      foldSteps
        (fun m gp =>
          foldSteps (fun m pp => permStep delimiter m gp.1 pp.1 pp.2) m gp.2)
        m pg)
    [] pd

/-- Loop body of the bitmask-variant `createFeatures` for one
`(group, resourceKey, raw)` declaration: build the `Feature`, then skip
when an already-indexed feature under the same name has strictly larger
access, otherwise assign. -/
def featStep (delimiter : String) (m : List (String × Feature))
    (g res : String) (access : Nat) (version : String) :
    Except NameError (List (String × Feature)) :=
  match mkFeature g res access version delimiter with
  | .error e => .error e
  | .ok f =>
    match assocFind m f.name with
    | some f₁ => if f₁.access > access then .ok m else .ok (objSet m f.name f)
    | none => .ok (objSet m f.name f)

/-- A raw feature entry `{access, version}` of the bitmask-variant
configuration. -/
structure RawFeat where
  access : Nat
  version : String
  deriving DecidableEq, Repr

/-- The bitmask-variant features configuration. -/
abbrev FeatsData := List (List (String × List (String × RawFeat)))

/-- `RBAC.prototype.createFeatures` from `src/lib/index.ts` (lines
429-457, the bitmask variant): nested loops over the array of group
objects, with the lower-access collision policy of `featStep`. -/
def createFeatures (fd : FeatsData) (delimiter : String) :
    Except NameError (List (String × Feature)) :=
  foldSteps
    (fun m fg =>
      foldSteps
        (fun m gp =>
          foldSteps (fun m fp => featStep delimiter m gp.1 fp.1 fp.2.access fp.2.version) m gp.2)
        m fg)
    [] fd

/-- The list-of-resources features configuration used by the
module-level variant: per role, a map from group to list of resource
names. -/
abbrev FeatsByRole := List (String × List (String × List String))

/-- Flattening of one role's groups into composite names; the template
in the source hardcodes `:` as the separator
(`` `${group}:${resource}` ``). -/
def flattenGroups (gs : List (String × List String)) : List String :=
  (gs.map fun gp => gp.2.map fun r => gp.1 ++ ":" ++ r).flatten

/-- `createFeatures` from `src/lib/index.ts` (lines 67-88, the
list-of-resources variant): assigns `initializedFeatures[role] = []`
for every entry and then pushes the flattened composite names. -/
def createFeaturesByRole : FeatsByRole → List (String × List String) :=
  let rec go (m : List (String × List String)) : FeatsByRole → List (String × List String)
    | [] => m
    | (role, gs) :: t => go (objSet m role (flattenGroups gs)) t
  go []

/-- The roles input: the configuration may supply an array of role
names (iterated by index) or an object whose values are role names. -/
inductive RolesVal where
  | arr (names : List String)
  | obj (kvs : List (String × String))
  deriving DecidableEq, Repr

/-- The raw role names enumerated by `for...in` over the roles value
(array indices yield the elements, object keys yield the values). -/
def rolesNames : Option RolesVal → List String
  | none => []
  | some (.arr names) => names
  | some (.obj kvs) => kvs.map (·.2)

/-- `createRoles` from `src/lib/index.ts` (lines 106-120): for each raw
role name, `roles[parsedRole.name] = parsedRole`; `for...in` over
`undefined` performs no iterations. -/
def createRoles (rv : Option RolesVal) : List (String × Role) :=
  let rec go (m : List (String × Role)) : List String → List (String × Role)
    | [] => m
    | n :: t => go (objSet m (Role.mk n).name (Role.mk n)) t
  go [] (rolesNames rv)

/-- `isEmptyArray` from `src/lib/helpers.ts` (lines 15-17) applied to
the merged roles value: true only for an actual array of length 0
(an empty object, a populated value, or `undefined` all fail the
`Array.isArray` test). -/
def isEmptyArrayRoles : Option RolesVal → Bool
  | some (.arr []) => true
  | _ => false

/-- A configuration field: absent from the options object, explicitly
`undefined`, or a value.  Spreading `{...DEFAULT_OPTIONS, ...options}`
replaces the default for a present key even when its value is
`undefined`. -/
inductive JsOpt (α : Type) where
  | absent
  | undef
  | val (v : α)

/-- Merging one field: absent keys take the default, present keys keep
their (possibly `undefined`) value. -/
def JsOpt.merge (dflt : α) : JsOpt α → Option α
  | .absent => some dflt
  | .undef => none
  | .val v => some v

/-- The `init(options)` argument (`src/lib/index.ts`, first variant). -/
structure Options where
  roles : JsOpt RolesVal
  permissions : JsOpt PermsData
  features : JsOpt FeatsByRole
  delimiter : JsOpt String

/-- The result of `{ ...DEFAULT_OPTIONS, ...options }` with
`DEFAULT_OPTIONS = { permissions: [], roles: {}, features: [],
delimiter: ':' }`.  An explicitly `undefined` delimiter is merged to the
empty string: the two are observationally equal here, since the only
uses are the falsiness test in `createName` (both fail it) after which
the delimiter is never reached. -/
structure MergedOptions where
  roles : Option RolesVal
  permissions : Option PermsData
  features : Option FeatsByRole
  delimiter : String

/-- The option spread performed at the top of `init`. -/
def mergeOptions (o : Options) : MergedOptions :=
  { roles := o.roles.merge (.obj [])
    permissions := o.permissions.merge []
    features := o.features.merge []
    delimiter := (o.delimiter.merge ":").getD "" }

/-- The flat index `data` built at initialization: `permissions` and
`features` keys are present only when the corresponding merged value was
truthy. -/
structure RBACData where
  roles : List (String × Role)
  permissions : Option (List (String × Permission))
  features : Option (List (String × List String))
  deriving Repr

/-- `create` from `src/lib/index.ts` (lines 42-60): roles always,
permissions and features only when their merged value is truthy (an
array — even empty — is truthy; only `undefined` is not). -/
def create (mo : MergedOptions) : Except JsError RBACData :=
  match mo.permissions with
  | none => .ok ⟨createRoles mo.roles, none, mo.features.map createFeaturesByRole⟩
  | some pd =>
    match createPermissions pd mo.delimiter with
    | .error e => .error (.nameErr e)
    | .ok pm => .ok ⟨createRoles mo.roles, some pm, mo.features.map createFeaturesByRole⟩

/-- `init` from `src/lib/index.ts` (lines 23-34): merge the options,
throw `'Roles are required'` when the merged roles value is an empty
array, then build the flat index. -/
def init (o : Options) : Except JsError RBACData :=
  if isEmptyArrayRoles (mergeOptions o).roles then .error .rolesRequired
  else create (mergeOptions o)

/-- `hasFeature` from `src/lib/index.ts` (lines 273-280): evaluates
`Feature.createName(group, resource, initOptions.delimiter)`.  The
`Feature` function object has no own `createName`
(`featureCtorOwnProps`), so this property access yields `undefined` and
the call throws a `TypeError` before any lookup happens.  The `some`
branch spells out the lookup that would follow (`data.features[name]`,
with a falsy result returned as `false`, modelled as `none`). -/
def hasFeature (delimiter : String) (features : List (String × List String))
    (group resource : String) : Except JsError (Option (List String)) :=
  match featureCtorOwnProps "createName" with
  | none => .error .typeError
  | some f =>
    match f group resource delimiter with
    | .error e => .error (.nameErr e)
    | .ok name => .ok (assocFind features name)

/-! ## Derived views used in statements -/

/-- `permStep` uncurried over one flat `(group, resourceKey, raw)`
declaration triple. -/
def permStep3 (delimiter : String) (m : List (String × Permission))
    (t : String × String × RawPerm) : Except NameError (List (String × Permission)) :=
  permStep delimiter m t.1 t.2.1 t.2.2

/-- `featStep` uncurried over one flat `(group, resourceKey, raw)`
declaration triple. -/
def featStep3 (delimiter : String) (m : List (String × Feature))
    (t : String × String × RawFeat) : Except NameError (List (String × Feature)) :=
  featStep delimiter m t.1 t.2.1 t.2.2.access t.2.2.version

/-- The flat list of `(group, resourceKey, raw)` feature declarations
enumerated by the nested loops of the bitmask-variant
`createFeatures`, in loop order. -/
def declsOfF (fd : FeatsData) : List (String × String × RawFeat) :=
  (fd.map fun fg => (fg.map fun gp => gp.2.map fun fp => (gp.1, fp.1, fp.2)).flatten).flatten

/-- The access values of the declarations in a flat declaration list
whose composite name is `name`. -/
def accFlat (ds : List (String × String × RawFeat)) (delimiter name : String) : List Nat :=
  (ds.filter fun t => t.1 ++ delimiter ++ t.2.1 == name).map fun t => t.2.2.access

/-- The access values of all feature declarations whose composite name
is `name`. -/
def accessesFor (fd : FeatsData) (delimiter name : String) : List Nat :=
  accFlat (declsOfF fd) delimiter name

/-- The flat list of `(group, resourceKey, raw)` permission declarations
enumerated by the nested loops of `createPermissions`, in loop order. -/
def declsOfP (pd : PermsData) : List (String × String × RawPerm) :=
  (pd.map fun pg => (pg.map fun gp => gp.2.map fun pp => (gp.1, pp.1, pp.2)).flatten).flatten

/-! ## Concrete instances used by counterexamples and witnesses -/

/-- A registry state with no registered rules. -/
def stEmpty : ACLState := ⟨.vundef, fun _ => none⟩

/-- A registry state binding the single rule `r` to a predicate that
returns `true`. -/
def stTrue : ACLState :=
  ⟨.vundef, fun s => if s = "r" then some (.fn fun _ _ => .ret (.vbool true)) else none⟩

/-- A registry state binding the single rule `r` to a predicate that
returns `false`. -/
def stFalse : ACLState :=
  ⟨.vundef, fun s => if s = "r" then some (.fn fun _ _ => .ret (.vbool false)) else none⟩

/-- A predicate registration that throws when invoked. -/
def cbBoom : Callback := .fn fun _ _ => .thrown

/-- A registry state with a succeeding rule `ok` and a throwing rule
`boom`. -/
def stMix : ACLState :=
  ⟨.vundef, fun s =>
    if s = "ok" then some (.fn fun _ _ => .ret (.vbool true))
    else if s = "boom" then some cbBoom
    else none⟩

/-- A permission whose `action` was supplied as the scalar string
`"create"`. -/
def permScalar : Permission := ⟨"g:r", "g", "r", .vstr "create", ""⟩

/-- A permission whose `action` was supplied as the array
`["create", "read"]`. -/
def permArr : Permission := ⟨"users:manage", "users", "manage", .varr 0 ["create", "read"], ""⟩

/-- A raw `(users, manage)` permission with action `"read"`, version
`"1"`. -/
def rawD1 : RawPerm := ⟨.vstr "read", "1", []⟩

/-- A raw `(users, manage)` permission with the identical action value
`"read"` but version `"2"`. -/
def rawD2 : RawPerm := ⟨.vstr "read", "2", []⟩

/-- Two permission group objects declaring the same `(users, manage)`
pair with the identical action value `"read"` but different versions. -/
def pdDup : PermsData :=
  [[("users", [("manage", rawD1)])], [("users", [("manage", rawD2)])]]

/-- The permission built from the first `pdDup` declaration. -/
def permDup1 : Permission := ⟨"users:manage", "users", "manage", .vstr "read", "1"⟩

/-- The permission stored after processing `pdDup`: the second
declaration's object. -/
def permDup2 : Permission := ⟨"users:manage", "users", "manage", .vstr "read", "2"⟩

/-- Two feature group objects declaring the same `(users, manage)` pair
with accesses 2 and 8. -/
def fdDup : FeatsData :=
  [[("users", [("manage", ⟨2, ""⟩)])],
   [("users", [("manage", ⟨8, ""⟩)])]]

/-- The feature stored after processing `fdDup`. -/
def featDup : Feature := ⟨"users:manage", "users", "manage", 8, none⟩

/-- An options object with every key absent. -/
def optsAllAbsent : Options := ⟨.absent, .absent, .absent, .absent⟩

/-- The index that `init` builds from `optsAllAbsent`. -/
def dataAllAbsent : RBACData := ⟨[], some [], some []⟩

/-- An options object whose roles value is the empty array. -/
def optsEmptyRoles : Options := ⟨.val (.arr []), .absent, .absent, .absent⟩

/-- An options object with one role and one permission declaration. -/
def optsOne : Options :=
  ⟨.val (.arr ["admin"]), .val [[("users", [("manage", ⟨.vstr "read", "", []⟩)])]],
   .absent, .absent⟩

/-- The permission entry built by `init optsOne`. -/
def permOne : Permission := ⟨"users:manage", "users", "manage", .vstr "read", ""⟩

/-- The index built by `init optsOne`. -/
def dataOne : RBACData :=
  ⟨[("admin", ⟨"admin"⟩)], some [("users:manage", permOne)], some []⟩

/-! # Helper lemmas -/

theorem assocFind_objSet (m : List (String × α)) (k k₁ : String) (v : α) :
    assocFind (objSet m k v) k₁ = if k = k₁ then some v else assocFind m k₁ := by
  induction m with
  | nil => simp [objSet, assocFind]
  | cons hd t ih =>
    obtain ⟨k₂, v₂⟩ := hd
    by_cases h₂ : k₂ = k
    · subst h₂
      by_cases h₁ : k₂ = k₁ <;> simp [objSet, assocFind, h₁]
    · by_cases h₁ : k₂ = k₁
      · subst h₁
        have : ¬ k = k₂ := fun h => h₂ h.symm
        simp [objSet, assocFind, h₂, this]
      · simp [objSet, assocFind, h₂, h₁, ih]

theorem foldSteps_append (step : μ → δ → Except ε μ) (m : μ) (a b : List δ) :
    foldSteps step m (a ++ b) =
      match foldSteps step m a with
      | .error e => .error e
      | .ok m₁ => foldSteps step m₁ b := by
  induction a generalizing m with
  | nil => simp [foldSteps]
  | cons x t ih =>
    simp only [List.cons_append, foldSteps]
    cases step m x <;> simp [ih]

theorem foldSteps_congr (step₁ step₂ : μ → δ → Except ε μ)
    (hs : ∀ m x, step₁ m x = step₂ m x) (m : μ) (l : List δ) :
    foldSteps step₁ m l = foldSteps step₂ m l := by
  induction l generalizing m with
  | nil => rfl
  | cons x t ih =>
    simp only [foldSteps, hs]
    cases step₂ m x <;> simp [ih]

theorem foldSteps_map (step : μ → δ₂ → Except ε μ) (g : δ₁ → δ₂) (m : μ) (l : List δ₁) :
    foldSteps step m (l.map g) = foldSteps (fun m x => step m (g x)) m l := by
  induction l generalizing m with
  | nil => rfl
  | cons x t ih =>
    simp only [List.map_cons, foldSteps]
    cases step m (g x) <;> simp [ih]

theorem foldSteps_flatten (step : μ → δ₂ → Except ε μ) (f : δ₁ → List δ₂) (m : μ)
    (l : List δ₁) :
    foldSteps (fun m sub => foldSteps step m (f sub)) m l =
      foldSteps step m ((l.map f).flatten) := by
  induction l generalizing m with
  | nil => rfl
  | cons x t ih =>
    simp only [List.map_cons, List.flatten_cons, foldSteps_append, foldSteps]
    cases foldSteps step m (f x) <;> simp [ih]

theorem foldSteps_inv (P : μ → Prop) (step : μ → δ → Except ε μ)
    (hstep : ∀ m x m₁, P m → step m x = .ok m₁ → P m₁) :
    ∀ (l : List δ) (m₀ m : μ), P m₀ → foldSteps step m₀ l = .ok m → P m := by
  intro l
  induction l with
  | nil =>
    intro m₀ m h₀ hr
    simp only [foldSteps] at hr
    cases hr
    exact h₀
  | cons x t ih =>
    intro m₀ m h₀ hr
    simp only [foldSteps] at hr
    cases hs : step m₀ x with
    | error e => rw [hs] at hr; cases hr
    | ok m₁ => rw [hs] at hr; exact ih m₁ m (hstep m₀ x m₁ h₀ hs) hr

theorem createName_ok_eq {g r d n : String} (h : createName g r d = .ok n) :
    n = g ++ d ++ r := by
  unfold createName at h
  split_ifs at h
  cases h
  rfl

theorem countAux_eq (st : ACLState) (args : List JsVal) :
    ∀ (l : List String) (acc : Nat × Nat),
      countAux st args l acc = (acc.1 + testedCount st l, acc.2 + satCount st l args) := by
  intro l
  induction l with
  | nil => intro acc; simp [countAux, testedCount, satCount]
  | cons r t ih =>
    intro acc
    cases hr : st.rulesMap r with
    | none =>
      simp only [countAux, hr]
      rw [ih]
      simp [testedCount, satCount, List.filter_cons, hr]
    | some cb =>
      have ht : testedCount st (r :: t) = testedCount st t + 1 := by
        simp [testedCount, List.filter_cons, hr]
      simp only [countAux, hr]
      rw [ih]
      cases hb : (evaluateRuleCallback st cb args).truthy with
      | true =>
        have hs : satCount st (r :: t) args = satCount st t args + 1 := by
          simp [satCount, List.filter_cons, hr, hb]
        simp [ht, hs, Prod.ext_iff]
        omega
      | false =>
        have hs : satCount st (r :: t) args = satCount st t args := by
          simp [satCount, List.filter_cons, hr, hb]
        simp [ht, hs, Prod.ext_iff]
        omega

theorem countRules_eq (st : ACLState) (l : List String) (args : List JsVal) :
    countRules st l args = (testedCount st l, satCount st l args) := by
  simpa using countAux_eq st args l (0, 0)

theorem createPermissions_flat (pd : PermsData) (d : String) :
    createPermissions pd d = foldSteps (permStep3 d) [] (declsOfP pd) := by
  unfold createPermissions declsOfP
  rw [← foldSteps_flatten]
  apply foldSteps_congr
  intro m pg
  rw [← foldSteps_flatten]
  apply foldSteps_congr
  intro m₁ gp
  rw [foldSteps_map]
  rfl

theorem createFeatures_flat (fd : FeatsData) (d : String) :
    createFeatures fd d = foldSteps (featStep3 d) [] (declsOfF fd) := by
  unfold createFeatures declsOfF
  rw [← foldSteps_flatten]
  apply foldSteps_congr
  intro m fg
  rw [← foldSteps_flatten]
  apply foldSteps_congr
  intro m₁ gp
  rw [foldSteps_map]
  rfl

/-! # Claim theorems -/

/-- C1, counterexample: with an empty registry, evaluating `can` on the
list `["x"]` containing only the unregistered name `"x"` returns `true`
(the `[0, 0]` counter pair satisfies `res[0] === res[1]`), not `false`
as the claim states for a name supplied inside a list. -/
theorem c1_counterexample :
    stEmpty.rulesMap "x" = none ∧
    canRuleChecker stEmpty (.list ["x"]) [] = .vbool true :=
  ⟨rfl, rfl⟩

/-- C1, amended: a single unregistered rule name makes `can` return
`false` without throwing, and an unregistered name inside a list is
excluded from both the tested and the satisfied counters (so `can` over
a list of only unregistered names is vacuously `true`, not `false`). -/
theorem c1_unregistered_rule :
    (∀ (st : ACLState) (r : String) (args : List JsVal),
      st.rulesMap r = none → canRuleChecker st (.str r) args = .vbool false) ∧
    (∀ (st : ACLState) (pre post : List String) (r : String) (args : List JsVal),
      st.rulesMap r = none →
      ruleChecker st (.list (pre ++ r :: post)) args =
        ruleChecker st (.list (pre ++ post)) args) := by
  constructor
  · intro st r args h
    simp [canRuleChecker, ruleChecker, h, JsVal.truthy]
  · intro st pre post r args h
    have h₁ : testedCount st (pre ++ r :: post) = testedCount st (pre ++ post) := by
      simp [testedCount, List.filter_append, List.filter_cons, h]
    have h₂ : satCount st (pre ++ r :: post) args = satCount st (pre ++ post) args := by
      simp [satCount, List.filter_append, List.filter_cons, h]
    simp [ruleChecker, countRules_eq, h₁, h₂]

/-- C1, witness: the amended statement evaluated on the empty registry
at the unregistered name `"x"`. -/
theorem c1_unregistered_rule_witness :
    canRuleChecker stEmpty (.str "x") [] = .vbool false ∧
    ruleChecker stEmpty (.list ["x"]) [] = ruleChecker stEmpty (.list []) [] :=
  ⟨c1_unregistered_rule.1 stEmpty "x" [] rfl,
   c1_unregistered_rule.2 stEmpty [] [] "x" [] rfl⟩

/-- C2: every call of `hasFeature` throws a `TypeError`, because it
invokes `Feature.createName` while `createName` is installed on
`Feature.prototype` only — `Feature.createName` is `undefined`.  The
claimed behaviour (direct lookup, `false` for an absent key, no throw
for not-found) is therefore never reached. -/
theorem c2_hasFeature_throws :
    ∀ (delimiter : String) (features : List (String × List String)) (g r : String),
      hasFeature delimiter features g r = .error .typeError := by
  intro delimiter features g r
  rfl

/-- C4, counterexample: for a single registered rule whose predicate
returns `true`, `canAny` returns `undefined` (`res[1]` of a boolean),
not `true`; for a single registered rule whose predicate returns
`false`, `canNot` returns `false`, not `true`. -/
theorem c4_counterexample :
    (stTrue.rulesMap "r").isSome = true ∧
    canAnyRuleChecker stTrue (.str "r") [] = JsVal.vundef ∧
    (stFalse.rulesMap "r").isSome = true ∧
    notRuleChecker stFalse (.str "r") [] = .vbool false :=
  ⟨rfl, rfl, rfl, rfl⟩

/-- C4, amended: over a *list* of rule names the evaluator computes the
`(total, satisfied)` pair and `canAny` returns the satisfied count
(truthy exactly when it is positive) while `canNot` returns
`satisfied === 0`; over a *single* name `ruleChecker` returns the
predicate's raw result instead of a pair, so `canAny` returns `res[1]`
(`undefined` for a boolean result) and `canNot` returns `false` for
every boolean predicate result. -/
theorem c4_quorum :
    (∀ (st : ACLState) (l : List String) (args : List JsVal),
      canAnyRuleChecker st (.list l) args = .vnum (satCount st l args)) ∧
    (∀ (st : ACLState) (l : List String) (args : List JsVal),
      (canAnyRuleChecker st (.list l) args).truthy = decide (0 < satCount st l args)) ∧
    (∀ (st : ACLState) (l : List String) (args : List JsVal),
      notRuleChecker st (.list l) args = .vbool (satCount st l args == 0)) ∧
    (∀ (st : ACLState) (r : String) (cb : Callback) (args : List JsVal) (b : Bool),
      st.rulesMap r = some cb → evaluateRuleCallback st cb args = .vbool b →
      canAnyRuleChecker st (.str r) args = (if b then JsVal.vundef else .vbool false) ∧
      notRuleChecker st (.str r) args = .vbool false) := by
  refine ⟨?_, ?_, ?_, ?_⟩
  · intro st l args
    simp [canAnyRuleChecker, ruleChecker, countRules_eq, JsVal.truthy, JsVal.index1]
  · intro st l args
    simp only [canAnyRuleChecker, ruleChecker, countRules_eq, JsVal.truthy, JsVal.index1]
    cases hn : satCount st l args <;> simp
  · intro st l args
    simp [notRuleChecker, ruleChecker, countRules_eq, JsVal.truthy, JsVal.index1,
      JsVal.strictEq]
  · intro st r cb args b h₁ h₂
    cases b <;>
      simp [canAnyRuleChecker, notRuleChecker, ruleChecker, h₁, h₂, JsVal.truthy,
        JsVal.index1, JsVal.strictEq]

/-- C4, witness: the amended single-name clause evaluated on the
registry binding `r` to a predicate returning `true`. -/
theorem c4_quorum_witness :
    canAnyRuleChecker stTrue (.str "r") [] = JsVal.vundef ∧
    notRuleChecker stTrue (.str "r") [] = .vbool false := by
  have h := c4_quorum.2.2.2 stTrue "r" (.fn fun _ _ => .ret (.vbool true)) [] true rfl rfl
  exact ⟨h.1, h.2⟩

/-- C9: a registered rule whose callback is not a function or whose
predicate throws contributes `tested + 1` and leaves `satisfied`
unchanged, and the counters of the sibling rules before and after it in
the same batch are computed as if it were evaluated alone — evaluation
runs to completion. -/
theorem c9_throwing_predicate :
    ∀ (st : ACLState) (pre post : List String) (r : String) (cb : Callback)
      (args : List JsVal),
      st.rulesMap r = some cb →
      (cb = .notFn ∨ ∃ f, cb = .fn f ∧ f st.user args = .thrown) →
      ruleChecker st (.list (pre ++ r :: post)) args =
        .vpair (testedCount st (pre ++ post) + 1) (satCount st (pre ++ post) args) := by
  intro st pre post r cb args h₁ h₂
  have hev : evaluateRuleCallback st cb args = .vbool false := by
    rcases h₂ with h | ⟨f, hf, hthrow⟩
    · subst h; rfl
    · subst hf; simp [evaluateRuleCallback, hthrow]
  have ht : testedCount st (pre ++ r :: post) = testedCount st (pre ++ post) + 1 := by
    simp [testedCount, List.filter_append, List.filter_cons, h₁]
    omega
  have hs : satCount st (pre ++ r :: post) args = satCount st (pre ++ post) args := by
    simp [satCount, List.filter_append, List.filter_cons, h₁, hev, JsVal.truthy]
  simp [ruleChecker, countRules_eq, ht, hs]

/-- C9, witness: in the batch `["ok", "boom", "ok"]` with `boom` bound
to a throwing predicate, the counters are `[3, 2]`: `boom` is tested but
not satisfied and both siblings are still evaluated. -/
theorem c9_throwing_predicate_witness :
    ruleChecker stMix (.list ["ok", "boom", "ok"]) [] = .vpair 3 2 := by
  have h := c9_throwing_predicate stMix ["ok"] ["ok"] "boom" cbBoom []
    rfl (Or.inr ⟨fun _ _ => .thrown, rfl, rfl⟩)
  exact h.trans (by decide)

theorem charsContain_iff (p l : List Char) : charsContain p l = true ↔ p <:+: l := by
  induction l with
  | nil =>
    simp [charsContain, List.isPrefixOf_iff_prefix]
  | cons a t ih =>
    simp [charsContain, List.isPrefixOf_iff_prefix, ih, List.infix_cons_iff]

/-- C5, counterexample: the permission constructed with the scalar
action `"create"` answers `true` for the requested action `"eat"`,
because `String.prototype.includes` is substring containment — `"eat"`
is not a member of the action set `{"create"}`. -/
theorem c5_counterexample :
    mkPermission "g" "r" (.vstr "create") "" ":" = .ok permScalar ∧
    Permission.can permScalar "g" "r" "eat" = .ok true ∧
    ("eat" : String) ≠ "create" := by
  refine ⟨rfl, rfl, by decide⟩

/-- C5, amended: `Permission.can` requires the group and the resource to
match exactly; for a permission whose `actions` value is an array the
action test is membership, but for a permission constructed with a
single scalar action it is JavaScript substring containment of the
requested action in the stored action string. -/
theorem c5_permission_can :
    ∀ (p : Permission) (g r a : String),
      (∀ (i : Nat) (vals : List String), p.action = .varr i vals →
        (Permission.can p g r a = .ok true ↔ p.group = g ∧ p.resource = r ∧ a ∈ vals)) ∧
      (∀ s : String, p.action = .vstr s →
        (Permission.can p g r a = .ok true ↔
          p.group = g ∧ p.resource = r ∧ a.data <:+: s.data)) := by
  intro p g r a
  constructor
  · intro i vals ha
    by_cases h : p.group = g ∧ p.resource = r
    · simp [Permission.can, h, ha, h.1, h.2]
    · simp only [Permission.can, if_neg h, ha]
      constructor
      · intro hh; cases hh
      · rintro ⟨h1, h2, _⟩; exact absurd ⟨h1, h2⟩ h
  · intro s ha
    by_cases h : p.group = g ∧ p.resource = r
    · simp [Permission.can, h, ha, h.1, h.2, strIncludes, charsContain_iff]
    · simp only [Permission.can, if_neg h, ha]
      constructor
      · intro hh; cases hh
      · rintro ⟨h1, h2, _⟩; exact absurd ⟨h1, h2⟩ h

/-- C5, witness: membership for the array-action permission, substring
containment for the scalar-action permission. -/
theorem c5_permission_can_witness :
    Permission.can permArr "users" "manage" "read" = .ok true ∧
    Permission.can permScalar "g" "r" "eat" = .ok true := by
  constructor
  · exact ((c5_permission_can permArr "users" "manage" "read").1 0 ["create", "read"]
      rfl).mpr ⟨rfl, rfl, by decide⟩
  · exact ((c5_permission_can permScalar "g" "r" "eat").2 "create" rfl).mpr
      ⟨rfl, rfl, by decide⟩

theorem idxOfSub_boundary (g : List Char) (c : Char) (r : List Char) (h : c ∉ g) :
    idxOfSub [c] (g ++ c :: r) = some g.length := by
  induction g with
  | nil => simp [idxOfSub, List.isPrefixOf]
  | cons a g ih =>
    have hne : c ≠ a := fun hh => h (hh ▸ List.mem_cons_self a g)
    have hg : c ∉ g := fun hh => h (List.mem_cons_of_mem a hh)
    have hp : [c].isPrefixOf (a :: (g ++ c :: r)) = false := by
      simp [List.isPrefixOf, hne]
    simp [idxOfSub, hp, ih hg]

/-- C8, counterexample: with the two-character delimiter `"--"` (not
contained in either half), encoding `("x", "y")` gives `"x--y"` but
decoding returns `{action: "x", resource: "-y"}`: the `substring(pos+1)`
in `decodeName` drops only one character of the delimiter, so the round
trip does not recover the original pair. -/
theorem c8_counterexample :
    createName "x" "y" "--" = .ok "x--y" ∧
    decodeName "x--y" "--" = .ok ⟨"x", "-y"⟩ ∧
    ("-y" : String) ≠ "y" := by
  refine ⟨rfl, rfl, by decide⟩

/-- C8, amended: for non-empty group, resource and delimiter the
composite key is exactly `group + delimiter + resource`; and when the
delimiter is a *single character* occurring in neither group nor
resource, decoding the key with the same delimiter recovers the
original pair (splitting at the first occurrence). -/
theorem c8_roundtrip :
    (∀ g r d : String, g ≠ "" → r ≠ "" → d ≠ "" →
      createName g r d = .ok (g ++ d ++ r)) ∧
    (∀ (g r : String) (c : Char), g ≠ "" → r ≠ "" → c ∉ g.data → c ∉ r.data →
      decodeName (g ++ (⟨[c]⟩ : String) ++ r) ⟨[c]⟩ = .ok ⟨g, r⟩) := by
  constructor
  · intro g r d hg hr hd
    simp [createName, hg, hr, hd]
  · intro g r c hg hr hcg hcr
    have hdne : (⟨[c]⟩ : String) ≠ "" := by
      intro hh
      rw [String.ext_iff] at hh
      simp at hh
    have hname : (g ++ (⟨[c]⟩ : String) ++ r).data = g.data ++ c :: r.data := by
      simp [String.data_append]
    have hnne : (g ++ (⟨[c]⟩ : String) ++ r) ≠ "" := by
      intro hh
      rw [String.ext_iff, hname] at hh
      simp at hh
    have hidx : jsIndexOf (g ++ (⟨[c]⟩ : String) ++ r) ⟨[c]⟩ = some g.data.length := by
      unfold jsIndexOf
      rw [hname]
      exact idxOfSub_boundary g.data c r.data hcg
    have htake : (g.data ++ c :: r.data).take g.data.length = g.data :=
      List.take_left ..
    have hdrop : (g.data ++ c :: r.data).drop (g.data.length + 1) = r.data := by
      have hsplit : g.data ++ c :: r.data = (g.data ++ [c]) ++ r.data := by simp
      have hlen : (g.data ++ [c]).length = g.data.length + 1 := by simp
      rw [hsplit, ← hlen, List.drop_left]
    unfold decodeName
    rw [if_neg hdne, if_neg hnne, hidx, hname]
    show Except.ok
        (DecodedName.mk ⟨(g.data ++ c :: r.data).take g.data.length⟩
          ⟨(g.data ++ c :: r.data).drop (g.data.length + 1)⟩) =
      Except.ok ⟨g, r⟩
    rw [htake, hdrop]

/-- C8, witness: the amended round trip evaluated at
`("users", "manage")` with the default single-character delimiter. -/
theorem c8_roundtrip_witness :
    createName "users" "manage" ":" = .ok ("users" ++ ":" ++ "manage") ∧
    decodeName ("users" ++ (⟨[':']⟩ : String) ++ "manage") ⟨[':']⟩ =
      .ok ⟨"users", "manage"⟩ :=
  ⟨c8_roundtrip.1 "users" "manage" ":" (by decide) (by decide) (by decide),
   c8_roundtrip.2 "users" "manage" ':' (by decide) (by decide) (by decide) (by decide)⟩

theorem isEmptyArrayRoles_iff (o : Option RolesVal) :
    isEmptyArrayRoles o = true ↔ o = some (.arr []) := by
  rcases o with _ | rv
  · simp [isEmptyArrayRoles]
  · rcases rv with names | kvs
    · rcases names with _ | ⟨n, t⟩ <;> simp [isEmptyArrayRoles]
    · simp [isEmptyArrayRoles]

theorem create_ne_rolesRequired (mo : MergedOptions) :
    create mo ≠ .error .rolesRequired := by
  intro h
  unfold create at h
  rcases hp : mo.permissions with _ | pd
  · simp only [hp] at h
    exact Except.noConfusion h
  · simp only [hp] at h
    rcases hc : createPermissions pd mo.delimiter with e | pm
    · simp only [hc] at h
      injection h with h₁
      exact JsError.noConfusion h₁
    · simp only [hc] at h
      exact Except.noConfusion h

/-- C3, counterexample: `init` with every option key absent succeeds —
the absent roles input defaults to `{}` which is not an empty *array* —
and the built index carries `permissions` and `features` keys holding
empty maps rather than omitting them. -/
theorem c3_counterexample :
    init optsAllAbsent = .ok dataAllAbsent ∧
    dataAllAbsent.permissions = some [] ∧
    dataAllAbsent.features = some [] :=
  ⟨rfl, rfl, rfl⟩

/-- C3, amended: `init` fails with the 'roles required' error exactly
when the merged roles value is an empty *array*; an absent roles key
defaults to `{}` and `init` succeeds.  Absent permissions or features
default to `[]`, which is truthy, so the corresponding maps are built
empty and included in the index, not omitted. -/
theorem c3_roles_required :
    (∀ o : Options,
      init o = .error .rolesRequired ↔ (mergeOptions o).roles = some (.arr [])) ∧
    (∀ (o : Options) (d : RBACData),
      o.permissions = .absent → init o = .ok d → d.permissions = some []) ∧
    (∀ (o : Options) (d : RBACData),
      o.features = .absent → init o = .ok d → d.features = some []) := by
  refine ⟨?_, ?_, ?_⟩
  · intro o
    constructor
    · intro h
      unfold init at h
      split_ifs at h with he
      · exact (isEmptyArrayRoles_iff _).mp he
      · exact absurd h (create_ne_rolesRequired _)
    · intro h
      have he : isEmptyArrayRoles (mergeOptions o).roles = true :=
        (isEmptyArrayRoles_iff _).mpr h
      unfold init
      rw [if_pos he]
  · intro o d hp h
    have hmp : (mergeOptions o).permissions = some [] := by
      simp [mergeOptions, hp, JsOpt.merge]
    unfold init at h
    split_ifs at h with he
    unfold create at h
    simp only [hmp] at h
    have hcp : createPermissions [] (mergeOptions o).delimiter = .ok [] := rfl
    simp only [hcp] at h
    cases h
    rfl
  · intro o d hf h
    have hmf : (mergeOptions o).features = some [] := by
      simp [mergeOptions, hf, JsOpt.merge]
    unfold init at h
    split_ifs at h with he
    unfold create at h
    rcases hp : (mergeOptions o).permissions with _ | pd
    · simp only [hp, hmf] at h
      cases h
      rfl
    · simp only [hp, hmf] at h
      rcases hc : createPermissions pd (mergeOptions o).delimiter with e | pm
      · simp only [hc] at h
        exact Except.noConfusion h
      · simp only [hc] at h
        cases h
        rfl

/-- C3, witness: the amended statement evaluated at an explicit empty
roles array (which does throw) and at the all-absent options (whose
index carries empty, non-omitted maps). -/
theorem c3_roles_required_witness :
    init optsEmptyRoles = .error .rolesRequired ∧
    dataAllAbsent.permissions = some [] ∧
    dataAllAbsent.features = some [] :=
  ⟨(c3_roles_required.1 optsEmptyRoles).mpr rfl,
   c3_roles_required.2.1 optsAllAbsent dataAllAbsent rfl rfl,
   c3_roles_required.2.2 optsAllAbsent dataAllAbsent rfl rfl⟩

theorem createRoles_go_keys :
    ∀ (l : List String) (m : List (String × Role)),
      (∀ k ro, assocFind m k = some ro → k = ro.name) →
      ∀ k ro, assocFind (createRoles.go m l) k = some ro → k = ro.name := by
  intro l
  induction l with
  | nil => intro m hm; exact hm
  | cons n t ih =>
    intro m hm
    apply ih
    intro k ro hfind
    rw [assocFind_objSet] at hfind
    split_ifs at hfind with hk
    · cases hfind
      exact hk.symm
    · exact hm k ro hfind

theorem createRoles_keys (rv : Option RolesVal) :
    ∀ k ro, assocFind (createRoles rv) k = some ro → k = ro.name := by
  apply createRoles_go_keys
  intro k ro h
  cases h

theorem mkPermission_ok (g res : String) (a : ActionVal) (v d : String) (p : Permission)
    (h : mkPermission g res a v d = .ok p) :
    p = ⟨g ++ d ++ res, g, res, a, v⟩ := by
  unfold mkPermission at h
  rcases hc : createName g res d with e | n
  · rw [hc] at h; cases h
  · rw [hc] at h
    cases h
    rw [createName_ok_eq hc]

theorem permStep3_keys (d : String) :
    ∀ (m : List (String × Permission)) (t : String × String × RawPerm)
      (m₁ : List (String × Permission)),
      (∀ k p, assocFind m k = some p →
        k = p.name ∧ p.name = p.group ++ d ++ p.resource) →
      permStep3 d m t = .ok m₁ →
      ∀ k p, assocFind m₁ k = some p →
        k = p.name ∧ p.name = p.group ++ d ++ p.resource := by
  intro m t m₁ hm hstep
  unfold permStep3 permStep at hstep
  rcases hmk : mkPermission t.1 t.2.1 t.2.2.action t.2.2.version d with e | p₀
  · simp only [hmk] at hstep
    exact Except.noConfusion hstep
  · simp only [hmk] at hstep
    have hp₀ := mkPermission_ok _ _ _ _ _ _ hmk
    split_ifs at hstep with hskip
    · cases hstep
      exact hm
    · cases hstep
      intro k p hfind
      rw [assocFind_objSet] at hfind
      split_ifs at hfind with hk
      · cases hfind
        subst hp₀
        exact ⟨hk.symm, rfl⟩
      · exact hm k p hfind

theorem createPermissions_keys (pd : PermsData) (d : String)
    (m : List (String × Permission)) (h : createPermissions pd d = .ok m) :
    ∀ k p, assocFind m k = some p →
      k = p.name ∧ p.name = p.group ++ d ++ p.resource := by
  rw [createPermissions_flat] at h
  refine foldSteps_inv
    (fun m₂ => ∀ k p, assocFind m₂ k = some p →
      k = p.name ∧ p.name = p.group ++ d ++ p.resource)
    (permStep3 d) ?_ (declsOfP pd) [] m ?_ h
  · intro m₀ t m₁ hP hs
    exact permStep3_keys d m₀ t m₁ hP hs
  · intro k p hfind
    cases hfind

/-- C10: in any successfully built index, every key of the roles map
equals the `name` of the stored Role, and every key of the permissions
map equals the `name` of the stored Permission, which is the composite
name generated from that permission's group and resource with the
merged delimiter. -/
theorem c10_index_keys :
    ∀ (o : Options) (d : RBACData), init o = .ok d →
      (∀ k ro, assocFind d.roles k = some ro → k = ro.name) ∧
      (∀ pm, d.permissions = some pm → ∀ k p, assocFind pm k = some p →
        k = p.name ∧ p.name = p.group ++ (mergeOptions o).delimiter ++ p.resource) := by
  intro o d h
  unfold init at h
  split_ifs at h with he
  unfold create at h
  rcases hp : (mergeOptions o).permissions with _ | pd
  · simp only [hp] at h
    cases h
    refine ⟨createRoles_keys _, ?_⟩
    intro pm hpm
    cases hpm
  · simp only [hp] at h
    rcases hc : createPermissions pd (mergeOptions o).delimiter with e | pm₀
    · simp only [hc] at h
      exact Except.noConfusion h
    · simp only [hc] at h
      cases h
      refine ⟨createRoles_keys _, ?_⟩
      intro pm hpm
      cases hpm
      exact createPermissions_keys pd _ pm₀ hc

/-- C10, witness: the invariant evaluated on the index built from one
role and one permission declaration. -/
theorem c10_index_keys_witness :
    "admin" = (Role.mk "admin").name ∧
    ("users:manage" = permOne.name ∧
      permOne.name = permOne.group ++ (mergeOptions optsOne).delimiter ++ permOne.resource) := by
  have h := c10_index_keys optsOne dataOne rfl
  exact ⟨h.1 "admin" ⟨"admin"⟩ rfl,
    h.2 [("users:manage", permOne)] rfl "users:manage" permOne rfl⟩

theorem declsOfP_append (a b : PermsData) :
    declsOfP (a ++ b) = declsOfP a ++ declsOfP b := by
  simp [declsOfP]

/-- C6, counterexample: two declarations of `(users, manage)` carrying
the *identical* action value `"read"` but different versions — the
claim's skip rule would keep the first registration (version `"1"`),
yet the built map holds the second (version `"2"`): the skip condition
reads `rawPermission[name]`, not the map being built, so the incoming
permission overwrites. -/
theorem c6_counterexample :
    createPermissions pdDup ":" = .ok [("users:manage", permDup2)] ∧
    permDup2.version = "2" ∧ ("2" : String) ≠ "1" :=
  ⟨rfl, rfl, by decide⟩

/-- C6, amended: the skip check indexes the incoming *raw* permission
object at the composite name instead of the map being built.  When that
raw self-lookup fails (or finds a different action) the incoming
permission overwrites whatever the map holds under the name — even an
entry with an identical action; the incoming permission is skipped only
when the raw object itself carries a property named by the composite
name whose `.action` is strictly equal to the raw action. -/
theorem c6_collision_policy :
    ∀ (pd : PermsData) (d g res : String) (raw : RawPerm)
      (m : List (String × Permission)) (p : Permission),
      createPermissions pd d = .ok m →
      mkPermission g res raw.action raw.version d = .ok p →
      (skipCond raw p.name = true →
        createPermissions (pd ++ [[(g, [(res, raw)])]]) d = .ok m) ∧
      (skipCond raw p.name = false →
        createPermissions (pd ++ [[(g, [(res, raw)])]]) d = .ok (objSet m p.name p) ∧
        assocFind (objSet m p.name p) p.name = some p) := by
  intro pd d g res raw m p hok hmk
  have h₁ : declsOfP (pd ++ [[(g, [(res, raw)])]]) = declsOfP pd ++ [(g, res, raw)] := by
    rw [declsOfP_append]
    rfl
  have h₂ : createPermissions (pd ++ [[(g, [(res, raw)])]]) d =
      foldSteps (permStep3 d) m [(g, res, raw)] := by
    rw [createPermissions_flat, h₁, foldSteps_append, ← createPermissions_flat, hok]
  have hstep : permStep3 d m (g, res, raw) =
      if skipCond raw p.name then .ok m else .ok (objSet m p.name p) := by
    unfold permStep3 permStep
    rw [hmk]
  constructor
  · intro hskip
    rw [h₂]
    simp [foldSteps, hstep, hskip]
  · intro hskip
    refine ⟨?_, ?_⟩
    · rw [h₂]
      simp [foldSteps, hstep, hskip]
    · rw [assocFind_objSet]
      simp

/-- C6, witness: the amended overwrite clause evaluated on the second
`pdDup` declaration arriving over the map already holding the first. -/
theorem c6_collision_policy_witness :
    createPermissions ([[("users", [("manage", rawD1)])]] ++ [[("users", [("manage", rawD2)])]])
        ":" = .ok (objSet [("users:manage", permDup1)] permDup2.name permDup2) ∧
    assocFind (objSet [("users:manage", permDup1)] permDup2.name permDup2) permDup2.name =
      some permDup2 :=
  (c6_collision_policy [[("users", [("manage", rawD1)])]] ":" "users" "manage" rawD2
    [("users:manage", permDup1)] permDup2 rfl rfl).2 rfl

theorem mkFeature_ok (g res : String) (ac : Nat) (v d : String) (f : Feature)
    (h : mkFeature g res ac v d = .ok f) :
    f = ⟨g ++ d ++ res, g, res, ac, if v = "" then none else some v⟩ := by
  unfold mkFeature at h
  rcases hc : createName g res d with e | n
  · rw [hc] at h; cases h
  · rw [hc] at h
    cases h
    rw [createName_ok_eq hc]

theorem accFlat_cons (t : String × String × RawFeat) (ds : List (String × String × RawFeat))
    (d name : String) :
    accFlat (t :: ds) d name =
      (if t.1 ++ d ++ t.2.1 = name then [t.2.2.access] else []) ++ accFlat ds d name := by
  by_cases h : t.1 ++ d ++ t.2.1 = name <;>
    simp [accFlat, List.filter_cons, h]

/-- The map invariant tracked through the bitmask `createFeatures` fold:
each stored feature's access is among, and an upper bound of, the access
multiset `A name` attributed to its key. -/
theorem inv_objSet (m₀ : List (String × Feature)) (A : String → List Nat) (n : String)
    (f : Feature) (acc : Nat) (hacc : f.access = acc)
    (hA : ∀ name,
      (∀ f₂, assocFind m₀ name = some f₂ →
        f₂.access ∈ A name ∧ ∀ a ∈ A name, a ≤ f₂.access) ∧
      (assocFind m₀ name = none → A name = []))
    (hub : ∀ a ∈ A n, a ≤ acc) :
    ∀ name,
      (∀ f₂, assocFind (objSet m₀ n f) name = some f₂ →
        f₂.access ∈ A name ++ (if n = name then [acc] else []) ∧
        ∀ a ∈ A name ++ (if n = name then [acc] else []), a ≤ f₂.access) ∧
      (assocFind (objSet m₀ n f) name = none →
        A name ++ (if n = name then [acc] else []) = []) := by
  intro name
  constructor
  · intro f₂ hfind₂
    rw [assocFind_objSet] at hfind₂
    split_ifs at hfind₂ with heq
    · cases hfind₂
      subst heq
      rw [if_pos rfl, hacc]
      constructor
      · exact List.mem_append_right _ (List.mem_singleton_self acc)
      · intro a ha
        rcases List.mem_append.mp ha with hmem₂ | hmem₂
        · exact hub a hmem₂
        · exact le_of_eq (List.mem_singleton.mp hmem₂)
    · rw [if_neg heq, List.append_nil]
      exact (hA name).1 f₂ hfind₂
  · intro hnone
    rw [assocFind_objSet] at hnone
    split_ifs at hnone with heq
    rw [if_neg heq, List.append_nil]
    exact (hA name).2 hnone

/-- The skip branch of the bitmask `createFeatures` fold keeps the
invariant when the incoming access does not exceed the stored one. -/
theorem inv_keep (m₀ : List (String × Feature)) (A : String → List Nat) (n : String)
    (f₁ : Feature) (acc : Nat)
    (hA : ∀ name,
      (∀ f₂, assocFind m₀ name = some f₂ →
        f₂.access ∈ A name ∧ ∀ a ∈ A name, a ≤ f₂.access) ∧
      (assocFind m₀ name = none → A name = []))
    (hfind : assocFind m₀ n = some f₁) (hle : acc ≤ f₁.access) :
    ∀ name,
      (∀ f₂, assocFind m₀ name = some f₂ →
        f₂.access ∈ A name ++ (if n = name then [acc] else []) ∧
        ∀ a ∈ A name ++ (if n = name then [acc] else []), a ≤ f₂.access) ∧
      (assocFind m₀ name = none →
        A name ++ (if n = name then [acc] else []) = []) := by
  intro name
  constructor
  · intro f₂ hfind₂
    obtain ⟨hmem, hbound⟩ := (hA name).1 f₂ hfind₂
    constructor
    · exact List.mem_append_left _ hmem
    · intro a ha
      rcases List.mem_append.mp ha with hmem₂ | hmem₂
      · exact hbound a hmem₂
      · by_cases heq : n = name
        · rw [if_pos heq] at hmem₂
          have ha₂ : a = acc := List.mem_singleton.mp hmem₂
          have hf₂ : f₂ = f₁ := by
            rw [heq] at hfind
            rw [hfind₂] at hfind
            exact Option.some.inj hfind
          rw [ha₂, hf₂]
          exact hle
        · rw [if_neg heq] at hmem₂
          cases hmem₂
  · intro hnone
    by_cases heq : n = name
    · rw [heq] at hfind
      rw [hnone] at hfind
      cases hfind
    · rw [if_neg heq, List.append_nil]
      exact (hA name).2 hnone

theorem featFlat_inv (d : String) :
    ∀ (ds : List (String × String × RawFeat)) (m₀ : List (String × Feature))
      (A : String → List Nat) (m : List (String × Feature)),
      (∀ name,
        (∀ f₂, assocFind m₀ name = some f₂ →
          f₂.access ∈ A name ∧ ∀ a ∈ A name, a ≤ f₂.access) ∧
        (assocFind m₀ name = none → A name = [])) →
      foldSteps (featStep3 d) m₀ ds = .ok m →
      ∀ name,
        (∀ f₂, assocFind m name = some f₂ →
          f₂.access ∈ A name ++ accFlat ds d name ∧
          ∀ a ∈ A name ++ accFlat ds d name, a ≤ f₂.access) ∧
        (assocFind m name = none → A name ++ accFlat ds d name = []) := by
  intro ds
  induction ds with
  | nil =>
    intro m₀ A m hA hfold name
    simp only [foldSteps] at hfold
    cases hfold
    simpa [accFlat] using hA name
  | cons t ts ih =>
    intro m₀ A m hA hfold name
    simp only [foldSteps] at hfold
    rcases hs : featStep3 d m₀ t with e | m₁
    · rw [hs] at hfold; cases hfold
    · rw [hs] at hfold
      unfold featStep3 featStep at hs
      rcases hmk : mkFeature t.1 t.2.1 t.2.2.access t.2.2.version d with e | f
      · simp only [hmk] at hs
        exact Except.noConfusion hs
      · simp only [hmk] at hs
        have hf := mkFeature_ok _ _ _ _ _ _ hmk
        have hfn : f.name = t.1 ++ d ++ t.2.1 := by rw [hf]
        have hfa : f.access = t.2.2.access := by rw [hf]
        have hsplit : ∀ nm, A nm ++ accFlat (t :: ts) d nm =
            (A nm ++ (if f.name = nm then [t.2.2.access] else [])) ++ accFlat ts d nm := by
          intro nm
          rw [accFlat_cons, ← List.append_assoc, hfn]
        rcases hfind : assocFind m₀ f.name with _ | f₁
        · simp only [hfind] at hs
          cases hs
          have hub : ∀ a ∈ A f.name, a ≤ t.2.2.access := by
            intro a ha
            rw [(hA f.name).2 hfind] at ha
            cases ha
          have key := ih (objSet m₀ f.name f)
            (fun nm => A nm ++ (if f.name = nm then [t.2.2.access] else [])) m
            (inv_objSet m₀ A f.name f t.2.2.access hfa hA hub) hfold
          rw [hsplit name]
          exact key name
        · simp only [hfind] at hs
          split_ifs at hs with hgt
          · cases hs
            have key := ih m₀
              (fun nm => A nm ++ (if f.name = nm then [t.2.2.access] else [])) m
              (inv_keep m₀ A f.name f₁ t.2.2.access hA hfind (le_of_lt hgt)) hfold
            rw [hsplit name]
            exact key name
          · cases hs
            have hub : ∀ a ∈ A f.name, a ≤ t.2.2.access := by
              intro a ha
              have hb := ((hA f.name).1 f₁ hfind).2 a ha
              exact le_trans hb (Nat.le_of_not_lt hgt)
            have key := ih (objSet m₀ f.name f)
              (fun nm => A nm ++ (if f.name = nm then [t.2.2.access] else [])) m
              (inv_objSet m₀ A f.name f t.2.2.access hfa hA hub) hfold
            rw [hsplit name]
            exact key name

/-- C7: in the bitmask variant of `createFeatures`, a declaration with
lower access than the stored one is discarded and otherwise overwrites,
so every entry of the built features map carries the *maximal* declared
access among all declarations resolving to its composite name — and
every declared composite name is present in the map. -/
theorem c7_access_max :
    ∀ (fd : FeatsData) (d : String) (m : List (String × Feature)),
      createFeatures fd d = .ok m →
      (∀ name f, assocFind m name = some f →
        f.access ∈ accessesFor fd d name ∧ ∀ a ∈ accessesFor fd d name, a ≤ f.access) ∧
      (∀ g res raw, (g, res, raw) ∈ declsOfF fd →
        ∃ f, assocFind m (g ++ d ++ res) = some f) := by
  intro fd d m h
  rw [createFeatures_flat] at h
  have base : ∀ name,
      (∀ f₂, assocFind ([] : List (String × Feature)) name = some f₂ →
        f₂.access ∈ ([] : List Nat) ∧ ∀ a ∈ ([] : List Nat), a ≤ f₂.access) ∧
      (assocFind ([] : List (String × Feature)) name = none → ([] : List Nat) = []) := by
    intro name
    refine ⟨fun f₂ hf => ?_, fun _ => rfl⟩
    cases hf
  have key := featFlat_inv d (declsOfF fd) [] (fun _ => []) m base h
  constructor
  · intro name f hf
    have hk := (key name).1 f hf
    simpa [accessesFor] using hk
  · intro g res raw hmem
    have haccmem : raw.access ∈ accFlat (declsOfF fd) d (g ++ d ++ res) := by
      unfold accFlat
      refine List.mem_map.mpr ⟨(g, res, raw), ?_, rfl⟩
      refine List.mem_filter.mpr ⟨hmem, ?_⟩
      simp
    rcases hfind : assocFind m (g ++ d ++ res) with _ | f
    · have hnil := (key (g ++ d ++ res)).2 hfind
      simp only [List.nil_append] at hnil
      rw [hnil] at haccmem
      cases haccmem
    · exact ⟨f, rfl⟩

/-- C7, witness: the map built from the colliding declarations with
accesses 2 and 8 holds a feature whose access is among the declared
accesses and bounds the discarded lower one. -/
theorem c7_access_max_witness :
    featDup.access ∈ accessesFor fdDup ":" "users:manage" ∧
    2 ≤ featDup.access := by
  have h := c7_access_max fdDup ":" [("users:manage", featDup)] rfl
  exact ⟨(h.1 "users:manage" featDup rfl).1,
    (h.1 "users:manage" featDup rfl).2 2 (by decide)⟩

end Kontrolle
